import Mathlib

/-!
Verification of `console-detect-logs/test6.go`.

A shallow embedding of the supervisor in `test6.go`: the choice of the command
line from the numbered text file, the two pipe readers, and the main thread's
wait/join sequence, followed by the properties established about them.

Go strings are byte sequences; a byte is a `Nat` here (its value, `0..255`).
-/

set_option autoImplicit false

namespace ConsoleDetectLogs

/-! ## Bytes and the string helpers of the Go standard library -/

/-- The bytes of an ASCII literal (for ASCII text the UTF-8 encoding of a
character is its code point). -/
def bytes (s : String) : List Nat := s.toList.map Char.toNat

/-- The newline byte, the delimiter of both `ReadString('\n')` calls. -/
def newline : Nat := 10

/-- Go `strings.HasPrefix(s, p)` on byte strings. -/
def hasPrefix : List Nat → List Nat → Bool
  | _, [] => true
  | [], _ :: _ => false
  | b :: s, c :: p => b == c && hasPrefix s p

/-- Go `strings.Contains(s, substr)`: `substr` occurs in `s` as a contiguous run
of bytes, compared byte for byte (so case-sensitively). -/
def contains : List Nat → List Nat → Bool
  | [], sub => hasPrefix [] sub
  | b :: s, sub => hasPrefix (b :: s) sub || contains s sub

/-- Go `bufio.Reader.ReadString(delim)` on a stream that delivers the bytes of
the list and then fails (end of file, closed pipe): the data up to and including
the first `delim`, whether the read succeeded (`err == nil`), and what is left of
the stream. When the stream ends before a delimiter the data read so far is
returned together with the error. -/
def readString (delim : Nat) : List Nat → List Nat × Bool × List Nat
  | [] => ([], false, [])
  | b :: rest =>
    if b = delim then ([b], true, rest)
    else
      let r := readString delim rest
      (b :: r.1, r.2.1, r.2.2)

/-! ## Observable actions of the two reader goroutines -/

/-- What a reader goroutine does that is visible from outside. -/
inductive Event where
  /-- The call `fmt.Print(operands...)`; all operands are strings here. -/
  | print (operands : List (List Nat))
  /-- The call `fmt.Println(msg)`. -/
  | println (msg : List Nat)
  /-- The call `cmd.Process.Kill()`. -/
  | kill
  /-- The call `log.Fatal(err)`, which ends the whole program. -/
  | logFatal
  deriving DecidableEq, Repr

/-- The literal tested first in the stderr loop (line 97). -/
def finishmePattern : List Nat := bytes "FINISHME:"

/-- The literal tested second in the stderr loop (line 102). -/
def lavapipePattern : List Nat :=
  bytes "WARNING: lavapipe is not a conformant vulkan implementation, testing use only."

/-- Body of the stdout loop for a line that was read successfully (line 82). -/
def stdoutBody (line : List Nat) : List Event :=
  [Event.print [bytes "1", line]]

/-- The stdout reader goroutine (lines 73-84). `none` only when the fuel for the
unbounded `for` runs out. -/
def stdoutLoop : Nat → List Nat → Option (List Event)
  | 0, _ => none
  | fuel + 1, stream =>
    match readString newline stream with
    | (_, false, _) => some []
    | (line, true, rest) =>
      match stdoutLoop fuel rest with
      | none => none
      | some evs => some (stdoutBody line ++ evs)

/-- Body of the stderr loop for a line that was read successfully (lines
96-110): the actions, and whether the loop is left by `break`. `killFails` says
whether `cmd.Process.Kill()` returns an error. -/
def stderrBody (killFails : Bool) (line : List Nat) : List Event × Bool :=
  let shown := [Event.print [line]]
  let gpu := if contains line finishmePattern
    then [Event.println (bytes "Works with GPU good")] else []
  if contains line lavapipePattern then
    (shown ++ gpu ++ [Event.println (bytes "Bad. Works with CPU"), Event.kill]
      ++ (if killFails then [Event.logFatal] else []), true)
  else (shown ++ gpu, false)

/-- The stderr reader goroutine (lines 87-113). -/
def stderrLoop (killFails : Bool) : Nat → List Nat → Option (List Event)
  | 0, _ => none
  | fuel + 1, stream =>
    match readString newline stream with
    | (_, false, _) => some []
    | (line, true, rest) =>
      match stderrBody killFails line with
      | (evs, true) => some evs
      | (evs, false) =>
        match stderrLoop killFails fuel rest with
        | none => none
        | some more => some (evs ++ more)

/-- The stdout reader on a whole stream. -/
def stdoutReader (stream : List Nat) : Option (List Event) :=
  stdoutLoop (stream.length + 1) stream

/-- The stderr reader on a whole stream. -/
def stderrReader (killFails : Bool) (stream : List Nat) : Option (List Event) :=
  stderrLoop killFails (stream.length + 1) stream

/-- Number of `cmd.Process.Kill()` calls in a trace. -/
def killCalls (evs : List Event) : Nat := evs.count Event.kill

/-! ## The main thread after a successful `cmd.Start()` (lines 68-121) -/

/-- How the child ended, as the operating system reports it to `cmd.Wait()`. -/
inductive ProcessState where
  /-- The child exited on its own with this exit code. -/
  | exited (code : Nat)
  /-- The child was ended by this signal (9 after `Process.Kill`). -/
  | signaled (signal : Nat)
  deriving DecidableEq, Repr

/-- Go `os.ProcessState.Success()`: the child exited with status 0. -/
def ProcessState.success : ProcessState → Bool
  | ProcessState.exited 0 => true
  | _ => false

/-- Whether `cmd.Wait()` returns a non-nil error. Go `os/exec`: the error is nil
when the command ran and exited with a zero exit status; a failed wait call, a
non-zero exit status and death by a signal all give an error (the last two an
`*ExitError`). With `StdoutPipe`/`StderrPipe` there is no copying that could
fail. -/
def cmdWaitErr (waitFails : Bool) (state : ProcessState) : Bool :=
  waitFails || !state.success

/-- Everything about the started child and the operating system that the
supervisor reacts to. `stdout` and `stderr` are the bytes each reader gets from
its pipe before a read fails: an initial part of what the child wrote, and all
of it only when the pipe is not closed before the reader has caught up. -/
structure Child where
  stdout : List Nat
  stderr : List Nat
  killFails : Bool
  waitFails : Bool
  state : ProcessState
  deriving Repr

/-- Steps of the main thread from `cmd.Wait()` on. -/
inductive MainStep where
  /-- The call `cmd.Wait()` returned; `err` says whether with an error. -/
  | waitReturned (err : Bool)
  /-- The call `log.Fatal(err)` on line 117. -/
  | logFatal
  /-- The call `wg.Wait()` returned: both readers have run `wg.Done()`. -/
  | readersJoined
  /-- Function `main` returned: the run finished normally. -/
  | returned
  deriving DecidableEq, Repr

/-- Lines 115-121. `readersDone` says whether both reader goroutines reach their
deferred `wg.Done()`; if one of them ends the program with `log.Fatal` instead,
`wg.Wait()` never returns. -/
def mainThread (waitErr readersDone : Bool) : List MainStep :=
  if waitErr then [MainStep.waitReturned true, MainStep.logFatal]
  else if readersDone then
    [MainStep.waitReturned false, MainStep.readersJoined, MainStep.returned]
  else [MainStep.waitReturned false]

/-- One run of the supervisor: what each goroutine did. -/
structure Run where
  outEvents : List Event
  errEvents : List Event
  mainSteps : List MainStep
  deriving DecidableEq, Repr

/-- The supervisor from `wg.Add(2)` to the end of `main`. The interleaving of the
three threads is not modelled, only what each of them does. -/
def supervise (c : Child) : Option Run :=
  match stdoutReader c.stdout, stderrReader c.killFails c.stderr with
  | some eo, some ee =>
    some { outEvents := eo, errEvents := ee,
           mainSteps := mainThread (cmdWaitErr c.waitFails c.state)
             (decide (Event.logFatal ∉ eo ++ ee)) }
  | _, _ => none

/-- Number of `cmd.Process.Kill()` calls of a run. -/
def Run.killCalls (r : Run) : Nat :=
  (r.outEvents ++ r.errEvents).count Event.kill

/-- The lines handed to `fmt.Print(line)` by the stderr reader, in order. -/
def passthrough : List Event → List (List Nat)
  | [] => []
  | Event.print [line] :: evs => line :: passthrough evs
  | _ :: evs => passthrough evs

/-! ## Choosing the command line (lines 28-47) -/

/-- Go `bufio.MaxScanTokenSize`, the size the scanner's buffer may grow to. -/
def maxScanTokenSize : Nat := 64 * 1024

/-- The helper `dropCR` of `bufio.ScanLines`: one trailing carriage return is
removed. -/
def dropCR (line : List Nat) : List Nat :=
  if line.getLast? = some 13 then line.dropLast else line

/-- The tokens that successive `scanner.Scan()` calls deliver with the default
split function `bufio.ScanLines`; `acc` is the part of the current line already
buffered. A line ends at a newline, a last line without newline is delivered
when it is not empty, and scanning stops (`ErrTooLong`) once the buffer is full
without holding a newline. -/
def scanLines (acc : List Nat) : List Nat → List (List Nat)
  | [] => if acc.isEmpty then [] else [dropCR acc]
  | b :: rest =>
    if b = newline then dropCR acc :: scanLines [] rest
    else if maxScanTokenSize ≤ acc.length + 1 then []
    else scanLines (acc ++ [b]) rest

/-- Go `strings.Split(s, " ")`: the pieces between single spaces; `cur` is the
piece being read. The result always has at least one piece. -/
def splitSpace (cur : List Nat) : List Nat → List (List Nat)
  | [] => [cur]
  | b :: rest => if b = 32 then cur :: splitSpace [] rest else splitSpace (cur ++ [b]) rest

/-- Go `unicode.IsSpace` on a code point. -/
def isSpace (r : Nat) : Bool :=
  (9 ≤ r && r ≤ 13) || r == 0x20 || r == 0x85 || r == 0xA0 || r == 0x1680
    || (0x2000 ≤ r && r ≤ 0x200A) || r == 0x2028 || r == 0x2029 || r == 0x202F
    || r == 0x205F || r == 0x3000

/-- A UTF-8 continuation byte. -/
def isCont (b : Nat) : Bool := 0x80 ≤ b && b ≤ 0xBF

/-- Go `utf8.DecodeRuneInString`: the code point at the head of the bytes and its
width; bytes that start no valid encoding decode to U+FFFD with width 1. -/
def decodeRune : List Nat → Nat × Nat
  | [] => (0xFFFD, 0)
  | b0 :: rest =>
    if b0 < 0x80 then (b0, 1)
    else if 0xC2 ≤ b0 && b0 ≤ 0xDF then
      match rest with
      | b1 :: _ => if isCont b1 then ((b0 % 32) * 64 + b1 % 64, 2) else (0xFFFD, 1)
      | [] => (0xFFFD, 1)
    else if 0xE0 ≤ b0 && b0 ≤ 0xEF then
      match rest with
      | b1 :: b2 :: _ =>
        if (if b0 = 0xE0 then 0xA0 else 0x80) ≤ b1 && b1 ≤ (if b0 = 0xED then 0x9F else 0xBF)
            && isCont b2 then
          ((b0 % 16) * 4096 + (b1 % 64) * 64 + b2 % 64, 3)
        else (0xFFFD, 1)
      | _ => (0xFFFD, 1)
    else if 0xF0 ≤ b0 && b0 ≤ 0xF4 then
      match rest with
      | b1 :: b2 :: b3 :: _ =>
        if (if b0 = 0xF0 then 0x90 else 0x80) ≤ b1 && b1 ≤ (if b0 = 0xF4 then 0x8F else 0xBF)
            && isCont b2 && isCont b3 then
          ((b0 % 8) * 262144 + (b1 % 64) * 4096 + (b2 % 64) * 64 + b3 % 64, 4)
        else (0xFFFD, 1)
      | _ => (0xFFFD, 1)
    else (0xFFFD, 1)

/-- The loop of Go `strings.FieldsFunc(s, unicode.IsSpace)`, to which
`strings.Fields(s)` is equal: `cur` is the field being read, if any. `none` only
when the fuel runs out. -/
def fieldsLoop : Nat → Option (List Nat) → List Nat → Option (List (List Nat))
  | 0, _, _ => none
  | _ + 1, cur, [] => some cur.toList
  | fuel + 1, cur, b :: rest =>
    let d := decodeRune (b :: rest)
    if isSpace d.1 then
      match fieldsLoop fuel none ((b :: rest).drop d.2) with
      | none => none
      | some fs => some (cur.toList ++ fs)
    else fieldsLoop fuel (some (cur.getD [] ++ (b :: rest).take d.2)) ((b :: rest).drop d.2)

/-- Go `strings.Fields(s)`: the maximal runs of non-space characters of `s`. -/
def fields (s : List Nat) : Option (List (List Nat)) := fieldsLoop (s.length + 1) none s

/-- One pass of the scan loop (lines 36-42): `commandrun` becomes the line. The
guard on the pieces of `strings.Split` only `continue`s at the end of the body. -/
def scanBody (_commandrun line : List Nat) : List Nat :=
  let parts := splitSpace [] line
  if parts.length = 0 then line else line

/-- The variable `commandrun` after the scan loop (lines 16-44). `file` is the
content of the numbered text file, `none` when `os.Open` fails: the error is
printed and the scanner, reading from a nil file, delivers nothing. -/
def commandrun (file : Option (List Nat)) : List Nat :=
  match file with
  | none => []
  | some content => (scanLines [] content).foldl scanBody []

/-- A run-time panic of the Go program. -/
inductive Panic where
  /-- Text `slice bounds out of range [low:high]`. -/
  | sliceBoundsOutOfRange (low high : Nat)
  deriving DecidableEq, Repr

/-- The arguments of `exec.Command(parts[0], parts[1:]...)`. -/
structure Command where
  name : List Nat
  args : List (List Nat)
  deriving DecidableEq, Repr

deriving instance DecidableEq for Except

/-- Line 47: on an empty slice neither `parts[0]` nor `parts[1:]` is in range and
the call panics; the compiled program reports the slice expression, `slice
bounds out of range [1:0]`. -/
def execCommand : List (List Nat) → Except Panic Command
  | [] => Except.error (Panic.sliceBoundsOutOfRange 1 0)
  | name :: args => Except.ok { name := name, args := args }

/-- Lines 28-47: the command handed to the process launcher; `none` only when
the fuel of `fields` runs out. -/
def launchCommand (file : Option (List Nat)) : Option (Except Panic Command) :=
  match fields (commandrun file) with
  | none => none
  | some parts => some (execCommand parts)

/-! ## Vocabulary of the specification -/

/-- The newline-terminated lines of a stream in stream order, each with its
newline; `acc` is the beginning of the current line. Bytes after the last
newline belong to no line. -/
def completeLinesFrom (acc : List Nat) : List Nat → List (List Nat)
  | [] => []
  | b :: rest =>
    if b = newline then (acc ++ [b]) :: completeLinesFrom [] rest
    else completeLinesFrom (acc ++ [b]) rest

/-- The newline-terminated lines of a stream. -/
def completeLines (stream : List Nat) : List (List Nat) := completeLinesFrom [] stream

/-- A line: bytes without a newline, followed by one newline. -/
def IsLine (l : List Nat) : Prop := ∃ body, l = body ++ [newline] ∧ newline ∉ body

/-- The degraded-backend pattern as the rule table of the specification writes
it (section 4.2); the code tests `lavapipePattern`. -/
def ruleTablePattern : List Nat := bytes "lavapipe is not a conformant vulkan implementation"

/-- The lines up to and including the first one that contains `pat`. -/
def throughFirst (pat : List Nat) : List (List Nat) → List (List Nat)
  | [] => []
  | l :: ls => if contains l pat then [l] else l :: throughFirst pat ls

/-- The warning of the code's literal as one complete line. -/
def lavapipeLine : List Nat := lavapipePattern ++ [newline]

/-- A child that prints one line on each stream and exits with code 0. -/
def quietChild : Child :=
  { stdout := bytes "done\n", stderr := bytes "FINISHME: ok\n", killFails := false,
    waitFails := false, state := ProcessState.exited 0 }

/-- A child whose only output is the warning line on standard error and that is
ended by the kill. -/
def warnedChild : Child :=
  { stdout := [], stderr := lavapipeLine, killFails := false, waitFails := false,
    state := ProcessState.signaled 9 }

/-- The stderr loop body run over a list of lines until it breaks. -/
def stderrOnLines (killFails : Bool) : List (List Nat) → List Event
  | [] => []
  | l :: ls =>
    match stderrBody killFails l with
    | (evs, true) => evs
    | (evs, false) => evs ++ stderrOnLines killFails ls

/-! ## `ReadString` against the lines of the stream -/

theorem readString_fail (s acc : List Nat) (h : (readString newline s).2.1 = false) :
    completeLinesFrom acc s = [] := by
  induction s generalizing acc with
  | nil => rfl
  | cons b rest ih =>
    by_cases hb : b = newline
    · simp [readString, hb] at h
    · simp only [readString, hb, if_false] at h
      simp only [completeLinesFrom, hb, if_false]
      exact ih _ h

theorem readString_ok (s acc : List Nat) (h : (readString newline s).2.1 = true) :
    completeLinesFrom acc s
      = (acc ++ (readString newline s).1) :: completeLinesFrom [] (readString newline s).2.2 := by
  induction s generalizing acc with
  | nil => simp [readString] at h
  | cons b rest ih =>
    by_cases hb : b = newline
    · simp [readString, completeLinesFrom, hb]
    · simp only [readString, hb, if_false] at h
      simp only [readString, completeLinesFrom, hb, if_false]
      rw [ih _ h]
      simp

theorem readString_rest_lt (s : List Nat) (h : (readString newline s).2.1 = true) :
    (readString newline s).2.2.length < s.length := by
  induction s with
  | nil => simp [readString] at h
  | cons b rest ih =>
    by_cases hb : b = newline
    · simp [readString, hb]
    · simp only [readString, hb, if_false] at h
      simp only [readString, hb, if_false, List.length_cons]
      have := ih h
      omega

/-- The stdout reader prints every complete line of its stream, and nothing
else, whenever the fuel exceeds the length of the stream. -/
theorem stdoutLoop_eq (fuel : Nat) (s : List Nat) (h : s.length < fuel) :
    stdoutLoop fuel s = some ((completeLines s).map fun l => Event.print [bytes "1", l]) := by
  induction fuel generalizing s with
  | zero => omega
  | succ fuel ih =>
    rcases hr : readString newline s with ⟨l, ok, rest⟩
    cases ok with
    | false =>
      have h1 : (readString newline s).2.1 = false := by rw [hr]
      simp [stdoutLoop, hr, completeLines, readString_fail s [] h1]
    | true =>
      have h1 : (readString newline s).2.1 = true := by rw [hr]
      have h2 := readString_rest_lt s h1
      have h3 := readString_ok s [] h1
      rw [hr] at h2 h3
      simp only at h2 h3
      have h4 := ih rest (by omega)
      simp [stdoutLoop, hr, completeLines, h3, h4, stdoutBody]

/-- The stderr reader runs its body over the complete lines of its stream,
whenever the fuel exceeds the length of the stream. -/
theorem stderrLoop_eq (k : Bool) (fuel : Nat) (s : List Nat) (h : s.length < fuel) :
    stderrLoop k fuel s = some (stderrOnLines k (completeLines s)) := by
  induction fuel generalizing s with
  | zero => omega
  | succ fuel ih =>
    rcases hr : readString newline s with ⟨l, ok, rest⟩
    cases ok with
    | false =>
      have h1 : (readString newline s).2.1 = false := by rw [hr]
      simp [stderrLoop, hr, completeLines, readString_fail s [] h1, stderrOnLines]
    | true =>
      have h1 : (readString newline s).2.1 = true := by rw [hr]
      have h2 := readString_rest_lt s h1
      have h3 := readString_ok s [] h1
      rw [hr] at h2 h3
      simp only at h2 h3
      have h4 := ih rest (by omega)
      rcases hb : stderrBody k l with ⟨evs, brk⟩
      cases brk <;>
        simp [stderrLoop, hr, completeLines, h3, h4, stderrOnLines, hb]

theorem stdoutReader_eq (s : List Nat) :
    stdoutReader s = some ((completeLines s).map fun l => Event.print [bytes "1", l]) :=
  stdoutLoop_eq _ s (Nat.lt_succ_self _)

theorem stderrReader_eq (k : Bool) (s : List Nat) :
    stderrReader k s = some (stderrOnLines k (completeLines s)) :=
  stderrLoop_eq k _ s (Nat.lt_succ_self _)

theorem supervise_eq (c : Child) :
    supervise c = some
      { outEvents := (completeLines c.stdout).map fun l => Event.print [bytes "1", l]
        errEvents := stderrOnLines c.killFails (completeLines c.stderr)
        mainSteps := mainThread (cmdWaitErr c.waitFails c.state)
          (decide (Event.logFatal ∉
            ((completeLines c.stdout).map fun l => Event.print [bytes "1", l])
              ++ stderrOnLines c.killFails (completeLines c.stderr))) } := by
  simp only [supervise, stdoutReader_eq, stderrReader_eq]

/-! ## The vocabulary is the intended one -/

theorem hasPrefix_iff (s p : List Nat) : hasPrefix s p = true ↔ p <+: s := by
  induction p generalizing s with
  | nil => simp [hasPrefix]
  | cons c p ih =>
    cases s with
    | nil => simp [hasPrefix]
    | cons b s =>
      simp only [hasPrefix, Bool.and_eq_true, beq_iff_eq, ih, List.cons_prefix_cons]
      constructor
      · rintro ⟨h1, h2⟩
        exact ⟨h1.symm, h2⟩
      · rintro ⟨h1, h2⟩
        exact ⟨h1.symm, h2⟩

/-- Function `contains` is containment as a contiguous sublist. -/
theorem contains_iff (s sub : List Nat) : contains s sub = true ↔ sub <:+: s := by
  induction s with
  | nil =>
    simp only [contains, hasPrefix_iff]
    constructor
    · intro h
      exact h.isInfix
    · intro h
      have := List.eq_nil_of_infix_nil h
      subst this
      exact List.prefix_refl _
  | cons b s ih =>
    simp only [contains, Bool.or_eq_true, hasPrefix_iff, ih]
    exact (List.infix_cons_iff).symm

theorem completeLinesFrom_partial (acc p : List Nat) (hp : newline ∉ p) :
    completeLinesFrom acc p = [] := by
  induction p generalizing acc with
  | nil => rfl
  | cons b rest ih =>
    have hb : b ≠ newline := fun h => hp (by simp [h])
    have hr : newline ∉ rest := fun h => hp (by simp [h])
    simp only [completeLinesFrom, hb, if_false]
    exact ih _ hr

theorem completeLinesFrom_body (acc body rest : List Nat) (hb : newline ∉ body) :
    completeLinesFrom acc (body ++ newline :: rest)
      = (acc ++ body ++ [newline]) :: completeLinesFrom [] rest := by
  induction body generalizing acc with
  | nil => simp [completeLinesFrom]
  | cons b body ih =>
    have h1 : b ≠ newline := fun h => hb (by simp [h])
    have h2 : newline ∉ body := fun h => hb (by simp [h])
    rw [List.cons_append]
    simp only [completeLinesFrom, h1, if_false]
    rw [ih _ h2]
    simp

/-- A stream made of lines followed by bytes without a newline has exactly
those lines as its complete lines. -/
theorem completeLines_flatten (ls : List (List Nat)) (p : List Nat)
    (hls : ∀ l ∈ ls, IsLine l) (hp : newline ∉ p) :
    completeLines (ls.flatten ++ p) = ls := by
  induction ls with
  | nil => simpa [completeLines] using completeLinesFrom_partial [] p hp
  | cons l ls ih =>
    obtain ⟨body, rfl, hb⟩ := hls l (by simp)
    have ih2 := ih (fun l hl => hls l (by simp [hl]))
    simp only [completeLines] at ih2 ⊢
    have e : (body ++ [newline]) :: ls = [body ++ [newline]] ++ ls := rfl
    rw [e, List.flatten_append]
    simp only [List.flatten_cons, List.flatten_nil, List.append_nil, List.append_assoc,
      List.singleton_append, List.cons_append]
    rw [completeLinesFrom_body [] body _ hb]
    simp [ih2]

/-- Bytes after the last newline do not change the complete lines. -/
theorem completeLinesFrom_append_partial (acc s p : List Nat) (hp : newline ∉ p) :
    completeLinesFrom acc (s ++ p) = completeLinesFrom acc s := by
  induction s generalizing acc with
  | nil => simpa [completeLinesFrom] using completeLinesFrom_partial acc p hp
  | cons b s ih =>
    by_cases hb : b = newline
    · simp [completeLinesFrom, hb, ih]
    · simp [completeLinesFrom, hb, ih]

/-- The complete lines of an initial part of a stream are an initial part of the
complete lines of the stream. -/
theorem completeLinesFrom_initial (acc d rest : List Nat) :
    completeLinesFrom acc d <+: completeLinesFrom acc (d ++ rest) := by
  induction d generalizing acc with
  | nil => exact List.nil_prefix
  | cons b d ih =>
    by_cases hb : b = newline
    · simp only [List.cons_append, completeLinesFrom, hb, if_true, List.cons_prefix_cons,
        true_and]
      exact ih []
    · simp only [List.cons_append, completeLinesFrom, hb, if_false]
      exact ih _

theorem completeLines_initial (delivered written : List Nat) (h : delivered <+: written) :
    completeLines delivered <+: completeLines written := by
  obtain ⟨rest, rfl⟩ := h
  exact completeLinesFrom_initial [] delivered rest

/-- Every stream is a part that is empty or ends in a newline, followed by a
final segment without newline. -/
theorem stream_decomposition (stream : List Nat) :
    ∃ s p, stream = s ++ p ∧ newline ∉ p ∧ (s = [] ∨ s.getLast? = some newline) := by
  induction stream with
  | nil => exact ⟨[], [], rfl, by simp, Or.inl rfl⟩
  | cons b t ih =>
    obtain ⟨s, p, rfl, hp, hs⟩ := ih
    cases s with
    | nil =>
      by_cases hb : b = newline
      · exact ⟨[b], p, rfl, hp, Or.inr (by simp [hb])⟩
      · refine ⟨[], b :: p, rfl, ?_, Or.inl rfl⟩
        intro h
        rcases List.mem_cons.mp h with h | h
        · exact hb h.symm
        · exact hp h
    | cons a s =>
      refine ⟨b :: a :: s, p, rfl, hp, Or.inr ?_⟩
      rcases hs with hs | hs
      · simp at hs
      · rw [List.getLast?_cons_cons]
        exact hs

/-! ## The stderr loop body and its iteration -/

theorem stderrBody_break (k : Bool) (l : List Nat) :
    (stderrBody k l).2 = contains l lavapipePattern := by
  unfold stderrBody
  cases contains l lavapipePattern <;> simp

theorem stderrBody_kill_count (k : Bool) (l : List Nat) :
    (stderrBody k l).1.count Event.kill = if contains l lavapipePattern then 1 else 0 := by
  unfold stderrBody
  cases contains l lavapipePattern <;> cases contains l finishmePattern <;> cases k <;>
    simp [List.count_cons]

theorem stderrBody_passthrough (k : Bool) (l : List Nat) :
    passthrough (stderrBody k l).1 = [l] := by
  unfold stderrBody
  cases contains l lavapipePattern <;> cases contains l finishmePattern <;> cases k <;>
    simp [passthrough]

theorem stderrBody_logFatal (k : Bool) (l : List Nat) :
    Event.logFatal ∈ (stderrBody k l).1 ↔ (k = true ∧ contains l lavapipePattern = true) := by
  unfold stderrBody
  cases contains l lavapipePattern <;> cases contains l finishmePattern <;> cases k <;>
    simp

theorem passthrough_append (xs ys : List Event) :
    passthrough (xs ++ ys) = passthrough xs ++ passthrough ys := by
  induction xs with
  | nil => rfl
  | cons e xs ih =>
    cases e with
    | print ops =>
      match ops with
      | [] => simpa [passthrough] using ih
      | [l] => simpa [passthrough] using ih
      | _ :: _ :: _ => simpa [passthrough] using ih
    | println m => simpa [passthrough] using ih
    | kill => simpa [passthrough] using ih
    | logFatal => simpa [passthrough] using ih

theorem stderrOnLines_kill_count (k : Bool) (ls : List (List Nat)) :
    (stderrOnLines k ls).count Event.kill
      = if ls.any (fun l => contains l lavapipePattern) then 1 else 0 := by
  induction ls with
  | nil => rfl
  | cons l ls ih =>
    have h1 := stderrBody_break k l
    have h2 := stderrBody_kill_count k l
    rcases hb : stderrBody k l with ⟨evs, brk⟩
    rw [hb] at h1 h2
    simp only at h1 h2
    cases hc : contains l lavapipePattern <;> rw [hc] at h1 h2 <;> subst h1 <;>
      simp [stderrOnLines, hb, hc, h2, ih, List.count_append]

theorem stderrOnLines_passthrough (k : Bool) (ls : List (List Nat)) :
    passthrough (stderrOnLines k ls) = throughFirst lavapipePattern ls := by
  induction ls with
  | nil => rfl
  | cons l ls ih =>
    have h1 := stderrBody_break k l
    have h2 := stderrBody_passthrough k l
    rcases hb : stderrBody k l with ⟨evs, brk⟩
    rw [hb] at h1 h2
    simp only at h1 h2
    cases hc : contains l lavapipePattern <;> rw [hc] at h1 <;> subst h1 <;>
      simp [stderrOnLines, hb, hc, h2, ih, passthrough_append, throughFirst]

theorem stderrOnLines_logFatal (k : Bool) (ls : List (List Nat)) :
    Event.logFatal ∈ stderrOnLines k ls
      ↔ (k = true ∧ ls.any (fun l => contains l lavapipePattern) = true) := by
  induction ls with
  | nil => simp [stderrOnLines]
  | cons l ls ih =>
    have h1 := stderrBody_break k l
    have h2 := stderrBody_logFatal k l
    rcases hb : stderrBody k l with ⟨evs, brk⟩
    rw [hb] at h1 h2
    simp only at h1 h2
    cases hc : contains l lavapipePattern <;> rw [hc] at h1 h2 <;> subst h1 <;>
      simp [stderrOnLines, hb, hc, h2, ih]

theorem stdout_kill_count (ls : List (List Nat)) :
    (ls.map fun l => Event.print [bytes "1", l]).count Event.kill = 0 := by
  induction ls with
  | nil => rfl
  | cons l ls ih => simpa [List.count_cons] using ih

theorem stdout_no_logFatal (ls : List (List Nat)) :
    Event.logFatal ∉ (ls.map fun l => Event.print [bytes "1", l]) := by
  simp

/-- The pattern of the rule table is part of the literal the code tests. -/
theorem ruleTable_of_lavapipe (l : List Nat) (h : contains l lavapipePattern = true) :
    contains l ruleTablePattern = true := by
  rw [contains_iff] at h ⊢
  have h0 : ruleTablePattern <:+: lavapipePattern := by
    rw [← contains_iff]
    decide
  exact h0.trans h

theorem run_kill_count (c : Child) :
    ∃ r, supervise c = some r ∧ Event.kill ∉ r.outEvents ∧
      r.killCalls = r.errEvents.count Event.kill ∧
      r.errEvents = stderrOnLines c.killFails (completeLines c.stderr) ∧
      r.killCalls
        = if (completeLines c.stderr).any (fun l => contains l lavapipePattern) then 1 else 0 := by
  refine ⟨_, supervise_eq c, ?_, ?_, rfl, ?_⟩
  · simp
  · simp [Run.killCalls, List.count_append, stdout_kill_count]
  · simp [Run.killCalls, List.count_append, stdout_kill_count, stderrOnLines_kill_count]

theorem stderrBody_before_kill (k : Bool) (l : List Nat) (pre post : List Event)
    (h : (stderrBody k l).1 = pre ++ Event.kill :: post) :
    contains l lavapipePattern = true ∧ Event.print [l] ∈ pre
      ∧ Event.println (bytes "Bad. Works with CPU") ∈ pre := by
  unfold stderrBody at h
  cases hc : contains l lavapipePattern <;> cases hf : contains l finishmePattern <;>
    cases k <;>
    simp [hc, hf, List.cons_eq_append_iff, List.nil_eq_append_iff] at h <;>
    (obtain ⟨_, rfl, _, rfl, _, rfl, _⟩ := h; simp)

theorem stderrOnLines_before_kill (k : Bool) (ls : List (List Nat)) (pre post : List Event)
    (h : stderrOnLines k ls = pre ++ Event.kill :: post) :
    ∃ l ∈ ls, contains l lavapipePattern = true ∧ Event.print [l] ∈ pre
      ∧ Event.println (bytes "Bad. Works with CPU") ∈ pre := by
  induction ls generalizing pre with
  | nil => simp [stderrOnLines] at h
  | cons l ls ih =>
    have h1 := stderrBody_break k l
    have h2 := stderrBody_kill_count k l
    have h3 := stderrBody_before_kill k l
    rcases hb : stderrBody k l with ⟨evs, brk⟩
    rw [hb] at h1 h2 h3
    simp only at h1 h2 h3
    cases hc : contains l lavapipePattern with
    | true =>
      rw [hc] at h1
      subst h1
      simp only [stderrOnLines, hb] at h
      obtain ⟨_, h5, h6⟩ := h3 pre post h
      exact ⟨l, by simp, hc, h5, h6⟩
    | false =>
      rw [hc] at h1 h2
      subst h1
      simp only [stderrOnLines, hb] at h
      have hk : Event.kill ∉ evs := by
        simpa [List.count_eq_zero] using h2
      rcases List.append_eq_append_iff.mp h with ⟨a', ha, hb'⟩ | ⟨c', hc', hd⟩
      · obtain ⟨l', hl', q1, q2, q3⟩ := ih a' hb'
        exact ⟨l', by simp [hl'], q1, by simp [ha, q2], by simp [ha, q3]⟩
      · exfalso
        apply hk
        rw [hc']
        cases c' with
        | nil =>
          obtain ⟨_, _, _, q2, _⟩ := ih [] (by simpa using hd.symm)
          simp at q2
        | cons x c' =>
          simp at hd
          simp [hd.1]

theorem mainThread_returned (w d : Bool) (h : MainStep.returned ∈ mainThread w d) :
    w = false ∧ d = true ∧
      mainThread w d = [MainStep.waitReturned false, MainStep.readersJoined, MainStep.returned] := by
  cases w <;> cases d <;> simp [mainThread] at h ⊢

theorem mainThread_joined (w d : Bool) (h : MainStep.readersJoined ∈ mainThread w d) :
    MainStep.returned ∈ mainThread w d := by
  cases w <;> cases d <;> simp [mainThread] at h ⊢

theorem mainThread_waitErr (w d : Bool) (h : w = true) :
    mainThread w d = [MainStep.waitReturned true, MainStep.logFatal] := by
  subst h
  rfl

theorem stderrBody_after_kill (k : Bool) (l : List Nat) (pre post : List Event)
    (h : (stderrBody k l).1 = pre ++ Event.kill :: post) :
    post = if k then [Event.logFatal] else [] := by
  unfold stderrBody at h
  cases hc : contains l lavapipePattern <;> cases hf : contains l finishmePattern <;>
    cases k <;>
    simp [hc, hf, List.cons_eq_append_iff, List.nil_eq_append_iff] at h <;>
    (obtain ⟨_, rfl, _, rfl, _, rfl, _⟩ := h; simp_all)

theorem stderrOnLines_after_kill (k : Bool) (ls : List (List Nat)) (pre post : List Event)
    (h : stderrOnLines k ls = pre ++ Event.kill :: post) :
    post = if k then [Event.logFatal] else [] := by
  induction ls generalizing pre with
  | nil => simp [stderrOnLines] at h
  | cons l ls ih =>
    have h1 := stderrBody_break k l
    have h2 := stderrBody_kill_count k l
    have h3 := stderrBody_after_kill k l
    rcases hb : stderrBody k l with ⟨evs, brk⟩
    rw [hb] at h1 h2 h3
    simp only at h1 h2 h3
    cases hc : contains l lavapipePattern with
    | true =>
      rw [hc] at h1
      subst h1
      simp only [stderrOnLines, hb] at h
      exact h3 pre post h
    | false =>
      rw [hc] at h1 h2
      subst h1
      simp only [stderrOnLines, hb] at h
      have hk : Event.kill ∉ evs := by
        simpa [List.count_eq_zero] using h2
      rcases List.append_eq_append_iff.mp h with ⟨a', _, hb'⟩ | ⟨c', hc', hd⟩
      · exact ih a' hb'
      · cases c' with
        | nil => exact ih [] (by simpa using hd.symm)
        | cons x c' =>
          exfalso
          apply hk
          rw [hc']
          simp at hd
          simp [hd.1]

/-! ## The field splitter always returns -/

theorem decodeRune_width_pos (b : Nat) (rest : List Nat) :
    1 ≤ (decodeRune (b :: rest)).2 := by
  unfold decodeRune
  repeat' split
  all_goals simp_all

theorem fieldsLoop_total (fuel : Nat) (cur : Option (List Nat)) (s : List Nat)
    (h : s.length < fuel) : ∃ fs, fieldsLoop fuel cur s = some fs := by
  induction fuel generalizing cur s with
  | zero => omega
  | succ fuel ih =>
    cases s with
    | nil => exact ⟨_, rfl⟩
    | cons b rest =>
      have hw := decodeRune_width_pos b rest
      have hlen : ((b :: rest).drop (decodeRune (b :: rest)).2).length < fuel := by
        rw [List.length_drop]
        simp only [List.length_cons] at h ⊢
        omega
      simp only [fieldsLoop]
      split
      · obtain ⟨fs, hfs⟩ := ih none _ hlen
        rw [hfs]
        exact ⟨_, rfl⟩
      · exact ih _ _ hlen

/-- Lines 28-47 always reach line 47: the token list exists, and the outcome is
the command or the panic of line 47. -/
theorem launchCommand_total (file : Option (List Nat)) :
    ∃ parts, fields (commandrun file) = some parts ∧
      launchCommand file = some (execCommand parts) := by
  obtain ⟨parts, hp⟩ := fieldsLoop_total ((commandrun file).length + 1) none (commandrun file)
    (Nat.lt_succ_self _)
  refine ⟨parts, hp, ?_⟩
  unfold launchCommand
  unfold fields at *
  rw [hp]

/-! ## Properties of one run -/

/-- Claim C1: whatever the child writes to its two streams, one run calls
`cmd.Process.Kill()` at most once: the stdout reader never calls it, and the
stderr reader leaves its loop right after a call (nothing follows the call in
its trace but the `log.Fatal` of a failed kill). -/
theorem at_most_one_kill (c : Child) :
    ∃ r, supervise c = some r ∧ Event.kill ∉ r.outEvents ∧ r.killCalls ≤ 1 ∧
      ∀ pre post, r.errEvents = pre ++ Event.kill :: post →
        post = if c.killFails then [Event.logFatal] else [] := by
  obtain ⟨r, h, h1, _, h3, h2⟩ := run_kill_count c
  refine ⟨r, h, h1, ?_, ?_⟩
  · rw [h2]
    split <;> omega
  · intro pre post hpre
    rw [h3] at hpre
    exact stderrOnLines_after_kill _ _ pre post hpre

/-- Claim C2: the run always produces its traces, and (a) the stdout reader never
kills, (b) every kill call of the stderr reader comes after that reader has
printed a complete stderr line containing the tested literal and the status line
of the classification, (c) without a complete line containing the tested literal
in either stream there is no kill call, and (d) the same holds for the shorter
pattern of the rule table. -/
theorem no_kill_without_degraded_line (c : Child) :
    ∃ r, supervise c = some r ∧ Event.kill ∉ r.outEvents ∧
      (∀ pre post, r.errEvents = pre ++ Event.kill :: post →
        ∃ l ∈ completeLines c.stderr, contains l lavapipePattern = true ∧
          Event.print [l] ∈ pre ∧ Event.println (bytes "Bad. Works with CPU") ∈ pre) ∧
      ((∀ l ∈ completeLines c.stdout ++ completeLines c.stderr,
          contains l lavapipePattern = false) → r.killCalls = 0) ∧
      ((∀ l ∈ completeLines c.stdout ++ completeLines c.stderr,
          contains l ruleTablePattern = false) → r.killCalls = 0) := by
  obtain ⟨r, h, h1, _, h3, h4⟩ := run_kill_count c
  have key : (∀ l ∈ completeLines c.stdout ++ completeLines c.stderr,
      contains l lavapipePattern = false) → r.killCalls = 0 := by
    intro hno
    rw [h4]
    have : (completeLines c.stderr).any (fun l => contains l lavapipePattern) = false := by
      rw [List.any_eq_false]
      intro l hl
      simp [hno l (by simp [hl])]
    simp [this]
  refine ⟨r, h, h1, ?_, key, ?_⟩
  · intro pre post hpre
    rw [h3] at hpre
    exact stderrOnLines_before_kill _ _ pre post hpre
  · intro hno
    apply key
    intro l hl
    cases hc : contains l lavapipePattern with
    | false => rfl
    | true =>
      have := ruleTable_of_lavapipe l hc
      rw [hno l hl] at this
      exact absurd this (by simp)

/-- Claim C2, at a concrete run: a capable-backend line on stdout and a
lower-case variant of the warning on stderr give no kill call. -/
theorem no_kill_without_degraded_line_witness :
    ∃ r, supervise { stdout := bytes "FINISHME: ok\n",
                     stderr := bytes "warning: LAVAPIPE is not conformant\n",
                     killFails := false, waitFails := false,
                     state := ProcessState.exited 0 } = some r ∧ r.killCalls = 0 := by
  obtain ⟨r, h, _, _, h3, _⟩ := no_kill_without_degraded_line
    { stdout := bytes "FINISHME: ok\n", stderr := bytes "warning: LAVAPIPE is not conformant\n",
      killFails := false, waitFails := false, state := ProcessState.exited 0 }
  exact ⟨r, h, h3 (by decide)⟩

/-- Claim C3 fails on the code: the warning line read from standard output (and
nothing on standard error) gives no kill call, while the same line read from
standard error gives one. -/
theorem stdout_degraded_line_not_killed :
    (∃ r, supervise { stdout := lavapipeLine, stderr := [], killFails := false,
                      waitFails := false, state := ProcessState.exited 0 } = some r
        ∧ lavapipeLine ∈ completeLines lavapipeLine
        ∧ contains lavapipeLine lavapipePattern = true
        ∧ contains lavapipeLine ruleTablePattern = true
        ∧ r.outEvents = [Event.print [bytes "1", lavapipeLine]] ∧ r.killCalls = 0) ∧
    (∃ r, supervise { stdout := [], stderr := lavapipeLine, killFails := false,
                      waitFails := false, state := ProcessState.signaled 9 } = some r
        ∧ r.killCalls = 1) := by
  constructor
  · exact ⟨_, rfl, by decide, by decide, by decide, by decide, by decide⟩
  · exact ⟨_, rfl, by decide⟩

/-- Claim C3 as amended: a line containing the tested literal triggers the kill
call only when it is read from standard error. A run that reads such a line from
standard output and none from standard error issues no kill call; a run that
reads the same line from standard error issues exactly one. -/
theorem degraded_line_kills_only_on_stderr (c : Child) (line : List Nat)
    (hdeg : contains line lavapipePattern = true)
    (hout : line ∈ completeLines c.stdout)
    (herr : ∀ l ∈ completeLines c.stderr, contains l lavapipePattern = false) :
    (∃ r, supervise c = some r ∧ Event.print [bytes "1", line] ∈ r.outEvents
        ∧ r.killCalls = 0) ∧
    (∀ err, line ∈ completeLines err →
      ∃ r, supervise { c with stderr := err } = some r ∧ r.killCalls = 1) := by
  constructor
  · obtain ⟨r, h, _, _, _, h4⟩ := run_kill_count c
    have hr := supervise_eq c
    rw [h] at hr
    refine ⟨r, h, ?_, ?_⟩
    · have : r.outEvents = (completeLines c.stdout).map fun l => Event.print [bytes "1", l] := by
        cases hr; rfl
      rw [this]
      exact List.mem_map_of_mem _ hout
    · rw [h4]
      have : (completeLines c.stderr).any (fun l => contains l lavapipePattern) = false := by
        rw [List.any_eq_false]
        intro l hl
        simp [herr l hl]
      simp [this]
  · intro err hl
    obtain ⟨r, h, _, _, _, h4⟩ := run_kill_count { c with stderr := err }
    refine ⟨r, h, ?_⟩
    rw [h4]
    have : (completeLines err).any (fun l => contains l lavapipePattern) = true := by
      rw [List.any_eq_true]
      exact ⟨line, hl, hdeg⟩
    simp [this]

/-- Claim C3 as amended, at a concrete run: the warning line after another line
on standard output. -/
theorem degraded_line_kills_only_on_stderr_witness :
    (∃ r, supervise { stdout := bytes "x\n" ++ lavapipeLine, stderr := bytes "y\n",
                      killFails := false, waitFails := false,
                      state := ProcessState.exited 0 } = some r
        ∧ Event.print [bytes "1", lavapipeLine] ∈ r.outEvents ∧ r.killCalls = 0) ∧
    (∀ err, lavapipeLine ∈ completeLines err →
      ∃ r, supervise { stdout := bytes "x\n" ++ lavapipeLine, stderr := err,
                       killFails := false, waitFails := false,
                       state := ProcessState.exited 0 } = some r ∧ r.killCalls = 1) :=
  degraded_line_kills_only_on_stderr
    { stdout := bytes "x\n" ++ lavapipeLine, stderr := bytes "y\n",
      killFails := false, waitFails := false, state := ProcessState.exited 0 }
    lavapipeLine (by decide) (by decide) (by decide)

/-- Claim C4 fails on the code: a stderr line that contains "FINISHME:" and the
warning is answered by both status lines and the kill call; the two tests are
independent, not first-match-wins. -/
theorem finishme_line_can_kill :
    contains (bytes "FINISHME: " ++ lavapipeLine) finishmePattern = true ∧
    stderrBody false (bytes "FINISHME: " ++ lavapipeLine)
      = ([Event.print [bytes "FINISHME: " ++ lavapipeLine],
          Event.println (bytes "Works with GPU good"),
          Event.println (bytes "Bad. Works with CPU"), Event.kill], true) ∧
    (stderrReader false (bytes "FINISHME: " ++ lavapipeLine)).map killCalls = some 1 := by
  refine ⟨by decide, by decide, by decide⟩

/-- Claim C4 as amended: reading a line that contains "FINISHME:" issues no kill
call on standard output, and on standard error it issues one exactly when the
line also contains the warning literal; the capable-backend status line is
printed on standard error in both cases. -/
theorem finishme_line_kill_iff (k : Bool) (line : List Nat)
    (hfin : contains line finishmePattern = true) :
    Event.kill ∉ stdoutBody line ∧
    Event.println (bytes "Works with GPU good") ∈ (stderrBody k line).1 ∧
    (contains line lavapipePattern = false → Event.kill ∉ (stderrBody k line).1) ∧
    (contains line lavapipePattern = true → (stderrBody k line).1.count Event.kill = 1) := by
  refine ⟨by simp [stdoutBody], ?_, ?_, ?_⟩
  · unfold stderrBody
    cases contains line lavapipePattern <;> cases k <;> simp [hfin]
  · intro h
    have := stderrBody_kill_count k line
    rw [h] at this
    simpa [List.count_eq_zero] using this
  · intro h
    have := stderrBody_kill_count k line
    rw [h] at this
    simpa using this

/-- Claim C4 as amended, at the line `FINISHME: ok`. -/
theorem finishme_line_kill_iff_witness :
    Event.kill ∉ stdoutBody (bytes "FINISHME: ok\n") ∧
    Event.println (bytes "Works with GPU good") ∈ (stderrBody false (bytes "FINISHME: ok\n")).1 ∧
    (contains (bytes "FINISHME: ok\n") lavapipePattern = false →
      Event.kill ∉ (stderrBody false (bytes "FINISHME: ok\n")).1) ∧
    (contains (bytes "FINISHME: ok\n") lavapipePattern = true →
      (stderrBody false (bytes "FINISHME: ok\n")).1.count Event.kill = 1) :=
  finishme_line_kill_iff false (bytes "FINISHME: ok\n") (by decide)

/-- Claim C5 fails on the code: a stderr line that contains the pattern of the
rule table, and even all of the warning up to its last clause, issues no kill
call, because the code tests the whole warning sentence. -/
theorem ruleTable_pattern_not_enough :
    contains (ruleTablePattern ++ [newline]) ruleTablePattern = true ∧
    (stderrReader false (ruleTablePattern ++ [newline])
      = some [Event.print [ruleTablePattern ++ [newline]]]) ∧
    (stderrReader false (bytes "WARNING: lavapipe is not a conformant vulkan implementation\n")).map
      killCalls = some 0 := by
  refine ⟨by decide, by decide, by decide⟩

/-- Claim C5 as amended: the degraded-backend test is containment, byte for
byte, of the whole literal `WARNING: lavapipe is not a conformant vulkan
implementation, testing use only.`. A stderr line that is read gets the
degraded status line and the kill call exactly when it contains that literal.
With `c.stderr` the bytes the stderr reader gets from its pipe, an initial part
of what the child wrote, the run issues a kill call exactly when some complete
line among the bytes read contains the literal, and then some complete line the
child wrote contains it. Nothing is said of lines that are written but never
read. -/
theorem degraded_rule_is_literal_containment (c : Child) (line written : List Nat)
    (hdel : c.stderr <+: written) :
    ((stderrBody c.killFails line).1.count Event.kill = 1 ↔ lavapipePattern <:+: line) ∧
    (Event.kill ∈ (stderrBody c.killFails line).1 ↔ lavapipePattern <:+: line) ∧
    (Event.println (bytes "Bad. Works with CPU") ∈ (stderrBody c.killFails line).1
      ↔ lavapipePattern <:+: line) ∧
    ∃ r, supervise c = some r ∧
      (r.killCalls = 1 ↔ ∃ l ∈ completeLines c.stderr, lavapipePattern <:+: l) ∧
      (r.killCalls = 0 ↔ ∀ l ∈ completeLines c.stderr, ¬ lavapipePattern <:+: l) ∧
      (r.killCalls = 1 → ∃ l ∈ completeLines written, lavapipePattern <:+: l) := by
  have hcnt := stderrBody_kill_count c.killFails line
  refine ⟨?_, ?_, ?_, ?_⟩
  · rw [hcnt, ← contains_iff]
    cases contains line lavapipePattern <;> simp
  · rw [← List.count_pos_iff, hcnt, ← contains_iff]
    cases contains line lavapipePattern <;> simp
  · rw [← contains_iff]
    unfold stderrBody
    cases contains line lavapipePattern <;> cases contains line finishmePattern <;>
      cases c.killFails <;> simp <;> decide
  · obtain ⟨r, h, _, _, _, h4⟩ := run_kill_count c
    have hany : (completeLines c.stderr).any (fun l => contains l lavapipePattern) = true
        ↔ ∃ l ∈ completeLines c.stderr, lavapipePattern <:+: l := by
      simp [List.any_eq_true, contains_iff]
    have hall : (∀ l ∈ completeLines c.stderr, ¬ lavapipePattern <:+: l)
        ↔ ¬ (completeLines c.stderr).any (fun l => contains l lavapipePattern) = true := by
      rw [hany]
      push_neg
      rfl
    have h1 : r.killCalls = 1 ↔ ∃ l ∈ completeLines c.stderr, lavapipePattern <:+: l := by
      rw [h4, ← hany]
      cases (completeLines c.stderr).any (fun l => contains l lavapipePattern) <;> simp
    refine ⟨r, h, h1, ?_, ?_⟩
    · rw [h4, hall]
      cases (completeLines c.stderr).any (fun l => contains l lavapipePattern) <;> simp
    · intro hk
      obtain ⟨l, hl, hin⟩ := h1.mp hk
      exact ⟨l, (completeLines_initial _ _ hdel).subset hl, hin⟩

/-- Claim C5 as amended, at a child whose warning line is followed by a line
that the reader does not get any more. -/
theorem degraded_rule_is_literal_containment_witness :
    ∃ r, supervise warnedChild = some r ∧ r.killCalls = 1 ∧
      ∃ l ∈ completeLines (warnedChild.stderr ++ bytes "later\n"), lavapipePattern <:+: l := by
  obtain ⟨_, _, _, r, h, h1, _, h3⟩ := degraded_rule_is_literal_containment warnedChild []
    (warnedChild.stderr ++ bytes "later\n") (List.prefix_append _ _)
  have hk : r.killCalls = 1 :=
    h1.mpr ⟨lavapipeLine, by decide, (contains_iff _ _).mp (by decide)⟩
  exact ⟨r, h, hk, h3 hk⟩

/-- Claim C6: bytes after the last newline of a stream are discarded by both
readers. For every stream `s` and every `p` without a newline, each reader does
on `s ++ p` exactly what it does on `s`; when `s` is empty or ends in a newline,
`p` is the whole final segment. A stream that is only such a segment produces
nothing at all: no passthrough, no status line, no kill call. -/
theorem partial_final_segment_discarded (k : Bool) (s p : List Nat) (hp : newline ∉ p) :
    (∃ evs, stdoutReader (s ++ p) = some evs ∧ stdoutReader s = some evs) ∧
    (∃ evs, stderrReader k (s ++ p) = some evs ∧ stderrReader k s = some evs) ∧
    stdoutReader p = some [] ∧ stderrReader k p = some [] := by
  have h1 : completeLines (s ++ p) = completeLines s :=
    completeLinesFrom_append_partial [] s p hp
  have h2 : completeLines p = [] := completeLinesFrom_partial [] p hp
  refine ⟨⟨_, stdoutReader_eq _, ?_⟩, ⟨_, stderrReader_eq k _, ?_⟩, ?_, ?_⟩
  · rw [stdoutReader_eq, h1]
  · rw [stderrReader_eq, h1]
  · rw [stdoutReader_eq, h2]
    rfl
  · rw [stderrReader_eq, h2]
    rfl

/-- Claim C6 at a concrete stream: one complete line followed by the warning
without its newline. -/
theorem partial_final_segment_discarded_witness :
    (∃ evs, stdoutReader (bytes "ok\n" ++ lavapipePattern) = some evs
      ∧ stdoutReader (bytes "ok\n") = some evs) ∧
    (∃ evs, stderrReader false (bytes "ok\n" ++ lavapipePattern) = some evs
      ∧ stderrReader false (bytes "ok\n") = some evs) ∧
    stdoutReader lavapipePattern = some [] ∧ stderrReader false lavapipePattern = some [] :=
  partial_final_segment_discarded false (bytes "ok\n") lavapipePattern (by decide)

/-- Claim C7 fails on the code: a child that writes nothing, is never killed and
exits on its own with exit code 1 makes `cmd.Wait()` return an error, and the
run ends in `log.Fatal` without returning from `main`. -/
theorem nonzero_exit_is_fatal :
    supervise { stdout := [], stderr := [], killFails := false, waitFails := false,
                state := ProcessState.exited 1 }
      = some { outEvents := [], errEvents := [],
               mainSteps := [MainStep.waitReturned true, MainStep.logFatal] } := by
  decide

/-- Claim C7 as amended: when the child is started, no complete stderr line
carries the warning (so it is never killed), the wait call itself does not fail
and the child exits on its own, then with exit code 0 the run finishes normally
(wait, join of the readers, return), and with any other exit code `cmd.Wait()`
returns an error and the run ends in the fatal-error path. -/
theorem natural_exit_outcome (c : Child) (code : Nat)
    (hk : ∀ l ∈ completeLines c.stderr, contains l lavapipePattern = false)
    (hw : c.waitFails = false) (hs : c.state = ProcessState.exited code) :
    ∃ r, supervise c = some r ∧ r.killCalls = 0 ∧
      (code = 0 → r.mainSteps
        = [MainStep.waitReturned false, MainStep.readersJoined, MainStep.returned]) ∧
      (code ≠ 0 → r.mainSteps = [MainStep.waitReturned true, MainStep.logFatal]) := by
  have hany : (completeLines c.stderr).any (fun l => contains l lavapipePattern) = false := by
    rw [List.any_eq_false]
    intro l hl
    simp [hk l hl]
  have hnf : Event.logFatal ∉
      ((completeLines c.stdout).map fun l => Event.print [bytes "1", l])
        ++ stderrOnLines c.killFails (completeLines c.stderr) := by
    intro hmem
    rcases List.mem_append.mp hmem with h | h
    · exact stdout_no_logFatal _ h
    · have := (stderrOnLines_logFatal _ _).mp h
      rw [hany] at this
      simp at this
  obtain ⟨r, h, _, _, _, h4⟩ := run_kill_count c
  have hr := supervise_eq c
  rw [h] at hr
  have hm : r.mainSteps = mainThread (cmdWaitErr c.waitFails c.state) true := by
    cases hr
    simp [hnf]
  refine ⟨r, h, ?_, ?_, ?_⟩
  · rw [h4, hany]
    rfl
  · intro h0
    subst h0
    rw [hm, hw, hs]
    rfl
  · intro h0
    rw [hm, hw, hs]
    cases code with
    | zero => exact absurd rfl h0
    | succ n => rfl

/-- Claim C7 as amended, at a child that prints one line on each stream and
exits with code 3. -/
theorem natural_exit_outcome_witness :
    ∃ r, supervise { stdout := bytes "done\n", stderr := bytes "FINISHME: ok\n",
                     killFails := false, waitFails := false,
                     state := ProcessState.exited 3 } = some r ∧ r.killCalls = 0 ∧
      (3 = 0 → r.mainSteps
        = [MainStep.waitReturned false, MainStep.readersJoined, MainStep.returned]) ∧
      (3 ≠ 0 → r.mainSteps = [MainStep.waitReturned true, MainStep.logFatal]) :=
  natural_exit_outcome
    { stdout := bytes "done\n", stderr := bytes "FINISHME: ok\n",
      killFails := false, waitFails := false, state := ProcessState.exited 3 }
    3 (by decide) rfl rfl

/-- Claim C8 on the code: with an empty command file, a command file that cannot
be opened, or one whose last line is empty or only white space, the token list
of the selected line is empty, it has no first element, and line 47 panics; a
file whose last line names a program gives a command. -/
theorem launchCommand_panics_on_blank_last_line :
    launchCommand (some []) = some (Except.error (Panic.sliceBoundsOutOfRange 1 0)) ∧
    launchCommand none = some (Except.error (Panic.sliceBoundsOutOfRange 1 0)) ∧
    launchCommand (some (bytes "upscayl-bin -i a.png\n\n"))
      = some (Except.error (Panic.sliceBoundsOutOfRange 1 0)) ∧
    launchCommand (some (bytes "upscayl-bin -i a.png\n \t\r\n"))
      = some (Except.error (Panic.sliceBoundsOutOfRange 1 0)) ∧
    fields (commandrun (some [])) = some [] ∧
    launchCommand (some (bytes "ls\nupscayl-bin -i  a.png\n"))
      = some (Except.ok { name := bytes "upscayl-bin", args := [bytes "-i", bytes "a.png"] }) := by
  refine ⟨by decide, by decide, by decide, by decide, by decide, by decide⟩

/-- Claim C9 fails on the code: the stderr reader leaves its loop after the
warning line, so a complete line that follows it is not passed through. -/
theorem line_after_warning_not_passed :
    completeLines (lavapipeLine ++ bytes "next\n") = [lavapipeLine, bytes "next\n"] ∧
    ∃ evs, stderrReader false (lavapipeLine ++ bytes "next\n") = some evs ∧
      passthrough evs = [lavapipeLine] ∧
      passthrough evs ≠ completeLines (lavapipeLine ++ bytes "next\n") := by
  refine ⟨by decide, _, rfl, by decide, by decide⟩

/-- Claim C9 as amended: with `delivered` the bytes the stderr reader gets from
its pipe, an initial part of what the child wrote, the reader passes through,
unchanged and unprefixed and in stream order, the complete lines among the bytes
read up to and including the first one that contains the warning literal, and
then stops; when no complete line read contains the literal these are all the
complete lines read. What is passed through is an initial part of the complete
lines the child wrote. Nothing is said of lines that are written but never
read. -/
theorem stderr_passthrough_through_first_warning (k : Bool) (written delivered : List Nat)
    (hdel : delivered <+: written) :
    ∃ evs, stderrReader k delivered = some evs ∧
      passthrough evs = throughFirst lavapipePattern (completeLines delivered) ∧
      passthrough evs <+: completeLines delivered ∧
      passthrough evs <+: completeLines written ∧
      ((∀ l ∈ completeLines delivered, contains l lavapipePattern = false) →
        passthrough evs = completeLines delivered) := by
  have hpre : ∀ ls : List (List Nat), throughFirst lavapipePattern ls <+: ls := by
    intro ls
    induction ls with
    | nil => exact List.prefix_refl _
    | cons l ls ih =>
      cases hc : contains l lavapipePattern
      · simpa [throughFirst, hc, List.cons_prefix_cons] using ih
      · simp [throughFirst, hc, List.cons_prefix_cons]
  have hall : ∀ ls : List (List Nat), (∀ l ∈ ls, contains l lavapipePattern = false) →
      throughFirst lavapipePattern ls = ls := by
    intro ls
    induction ls with
    | nil => intro _; rfl
    | cons l ls ih =>
      intro h
      have h1 := h l (by simp)
      have h2 := ih (fun l' hl' => h l' (by simp [hl']))
      simp [throughFirst, h1, h2]
  refine ⟨_, stderrReader_eq k delivered, stderrOnLines_passthrough k _, ?_, ?_, ?_⟩
  · rw [stderrOnLines_passthrough]
    exact hpre _
  · rw [stderrOnLines_passthrough]
    exact (hpre _).trans (completeLines_initial _ _ hdel)
  · intro h
    rw [stderrOnLines_passthrough]
    exact hall _ h

/-- Claim C9 as amended, at a stream without the warning of which the reader
gets all but the last line. -/
theorem stderr_passthrough_through_first_warning_witness :
    ∃ evs, stderrReader false (bytes "a\nFINISHME: b\nc") = some evs ∧
      passthrough evs = [bytes "a\n", bytes "FINISHME: b\n"] ∧
      passthrough evs <+: completeLines (bytes "a\nFINISHME: b\nc" ++ bytes "d\ne\n") := by
  obtain ⟨evs, h, _, _, h2, h3⟩ :=
    stderr_passthrough_through_first_warning false
      (bytes "a\nFINISHME: b\nc" ++ bytes "d\ne\n") (bytes "a\nFINISHME: b\nc")
      (List.prefix_append _ _)
  refine ⟨evs, h, ?_, h2⟩
  rw [h3 (by decide)]
  decide

/-- Claim C10 fails on the code: in the run where the warning on stderr caused
the kill and the kill took effect, `cmd.Wait()` returns an error, the main thread
calls `log.Fatal` and the join on the two readers is never reached. -/
theorem killed_run_skips_join :
    ∃ r, supervise { stdout := [], stderr := lavapipeLine, killFails := false,
                     waitFails := false, state := ProcessState.signaled 9 } = some r ∧
      r.killCalls = 1 ∧
      r.mainSteps = [MainStep.waitReturned true, MainStep.logFatal] ∧
      MainStep.readersJoined ∉ r.mainSteps := by
  refine ⟨_, rfl, by decide, by decide, by decide⟩

/-- Claim C10 as amended: a run of a started child returns from `main` only after
`cmd.Wait()` has returned without error and then the join on both readers has
returned, with neither reader having ended the program; whenever `cmd.Wait()`
returns an error (a failed wait, a non-zero exit code, or a child ended by the
kill) the main thread goes from the wait straight to `log.Fatal` and the join is
not reached. -/
theorem finished_only_after_wait_and_join (c : Child) :
    ∃ r, supervise c = some r ∧
      (MainStep.returned ∈ r.mainSteps →
        r.mainSteps = [MainStep.waitReturned false, MainStep.readersJoined, MainStep.returned]
          ∧ c.waitFails = false ∧ c.state = ProcessState.exited 0
          ∧ Event.logFatal ∉ r.outEvents ++ r.errEvents) ∧
      (MainStep.readersJoined ∈ r.mainSteps → MainStep.returned ∈ r.mainSteps) ∧
      ((c.waitFails = true ∨ c.state ≠ ProcessState.exited 0) →
        r.mainSteps = [MainStep.waitReturned true, MainStep.logFatal]) := by
  have hw : cmdWaitErr c.waitFails c.state = false
      ↔ (c.waitFails = false ∧ c.state = ProcessState.exited 0) := by
    rcases c with ⟨out, err, kf, wf, st⟩
    cases wf <;> rcases st with (_ | n) | sg <;> simp [cmdWaitErr, ProcessState.success]
  refine ⟨_, supervise_eq c, ?_, ?_, ?_⟩
  · intro h
    obtain ⟨h1, h2, h3⟩ := mainThread_returned _ _ h
    refine ⟨h3, (hw.mp h1).1, (hw.mp h1).2, ?_⟩
    simpa using h2
  · exact mainThread_joined _ _
  · intro h
    apply mainThread_waitErr
    cases hc : cmdWaitErr c.waitFails c.state with
    | true => rfl
    | false =>
      obtain ⟨h1, h2⟩ := hw.mp hc
      rcases h with h | h
      · rw [h1] at h
        exact absurd h (by simp)
      · exact absurd h2 h

/-- Claim C10 as amended, at a child that exits with code 0 after one line on
each stream: the main thread waits, joins and returns. -/
theorem finished_only_after_wait_and_join_witness :
    ∃ r, supervise quietChild = some r ∧
      r.mainSteps = [MainStep.waitReturned false, MainStep.readersJoined, MainStep.returned] := by
  obtain ⟨r, h, h1, _, _⟩ := finished_only_after_wait_and_join quietChild
  have hr : supervise quietChild = some
      { outEvents := [Event.print [bytes "1", bytes "done\n"]],
        errEvents := [Event.print [bytes "FINISHME: ok\n"],
                      Event.println (bytes "Works with GPU good")],
        mainSteps := [MainStep.waitReturned false, MainStep.readersJoined,
                      MainStep.returned] } := by decide
  rw [hr] at h
  cases h
  exact ⟨_, hr, (h1 (by decide)).1⟩

end ConsoleDetectLogs
